import Mathlib

/-!
MMSeg: dictionary word segmentation (`mmseg.h`).

A shallow embedding of the segmentation engine of `mmseg.h`: the dictionary
trie (`Trie::add`, `Trie::match_all`), the chunk constructor with its four
statistics, the chunk enumerator `get_chunks` and the driver `segment`.

Conventions of the embedding

* A `StringIt` is a position (`Nat`) in the text, a `StringP` a pair of
  positions; an iterator range `[start, end)` is read as the slice of the text
  between the two positions.
* `std::unordered_map<K, V>` is a finite partial map, modelled as `K → Option V`
  (`find` is application, `emplace` inserts when the key is absent).
* `float` is IEEE-754 binary32 with round-to-nearest-even (`F32`), the two zeros
  identified.  `log` comes from the C library and is a parameter.
  Every operation is rounded on its own (no contraction, no wider
  intermediate format).
* `size_t` values are lengths and counts bounded by the length of the text; they
  are modelled by `Nat`.  The `int` arguments `depth` and `n` are modelled by
  `Int`, the frequencies (`int`) as well.
* Loops and recursion that the source does not bound syntactically take a
  budget; running out of it is reported, and so is undefined behaviour.
-/

namespace MMSeg

/-! ## Binary32 arithmetic -/

/-- A binary32 value.  `fin k` is the finite value `k * 2^(-149)` (every finite
binary32 number is an integer multiple of the least subnormal `2^(-149)`);
`+0` and `-0` are both `fin 0`. -/
inductive F32 where
  | fin (k : Int)
  | pinf
  | ninf
  | nan
  deriving DecidableEq, Repr

namespace F32

/-- The value `1.0` counted in units of `2^(-149)`. -/
def one_units : Nat := 2 ^ 149

/-- The least value that rounds to an infinity, `2^128`, in units of `2^(-149)`. -/
def overflow_units : Nat := 2 ^ 128 * 2 ^ 149

/-- Least `j` (searched upwards from `j`, at most `fuel` steps) with
`x / 2^j < 2^24`, that is `x < 2^(24+j)`: the binade of `x`, so that the spacing
of binary32 numbers around `x` units is `2^j` units. -/
def shift (x : Nat) : Nat → Nat → Nat
  | 0, j => j
  | fuel + 1, j => if x / 2 ^ j < 2 ^ 24 then j else shift x fuel (j + 1)

/-- Round the non-negative rational `N / D` to the nearest integer, ties to even. -/
def rne (N D : Nat) : Nat :=
  let q := N / D
  let r := N % D
  if 2 * r < D then q
  else if D < 2 * r then q + 1
  else if q % 2 = 0 then q else q + 1

/-- Round the non-negative rational `N / D` (in units of `2^(-149)`, `D > 0`) to
binary32: nearest representable value, ties to even, overflow to `+inf`. -/
def roundPos (N D : Nat) : F32 :=
  let j := shift (N / D) 254 0
  let k := rne N (D * 2 ^ j) * 2 ^ j
  if overflow_units ≤ k then pinf else fin (k : Int)

/-- Negation (`-x`). -/
def neg : F32 → F32
  | fin k => fin (-k)
  | pinf => ninf
  | ninf => pinf
  | nan => nan

/-- Round the rational `N / D` (in units of `2^(-149)`, `D > 0`) to binary32. -/
def round (N : Int) (D : Nat) : F32 :=
  if N < 0 then neg (roundPos N.natAbs D) else roundPos N.toNat D

/-- Conversion `float(n)` of a `size_t`. -/
def ofNat (n : Nat) : F32 := roundPos (n * one_units) 1

/-- Conversion `float(i)` of an `int`. -/
def ofInt (i : Int) : F32 := round (i * (one_units : Int)) 1

/-- Addition `x + y`. -/
def add : F32 → F32 → F32
  | nan, _ => nan
  | _, nan => nan
  | pinf, ninf => nan
  | ninf, pinf => nan
  | pinf, _ => pinf
  | _, pinf => pinf
  | ninf, _ => ninf
  | _, ninf => ninf
  | fin a, fin b => round (a + b) 1

/-- Subtraction `x - y`. -/
def sub (x y : F32) : F32 := add x (neg y)

/-- Multiplication `x * y`. -/
def mul : F32 → F32 → F32
  | nan, _ => nan
  | _, nan => nan
  | fin a, fin b => round (a * b) one_units
  | fin a, pinf => if a = 0 then nan else if 0 < a then pinf else ninf
  | fin a, ninf => if a = 0 then nan else if 0 < a then ninf else pinf
  | pinf, fin b => if b = 0 then nan else if 0 < b then pinf else ninf
  | ninf, fin b => if b = 0 then nan else if 0 < b then ninf else pinf
  | pinf, pinf => pinf
  | pinf, ninf => ninf
  | ninf, pinf => ninf
  | ninf, ninf => pinf

/-- Division `x / y`.  A zero divisor is `+0` (every divisor in the program is
the conversion of an unsigned count). -/
def div : F32 → F32 → F32
  | nan, _ => nan
  | _, nan => nan
  | fin a, fin b =>
      if b = 0 then (if a = 0 then nan else if 0 < a then pinf else ninf)
      else if 0 < b then round (a * (one_units : Int)) b.natAbs
      else round (-(a * (one_units : Int))) b.natAbs
  | fin _, pinf => fin 0
  | fin _, ninf => fin 0
  | pinf, fin b => if 0 ≤ b then pinf else ninf
  | ninf, fin b => if 0 ≤ b then ninf else pinf
  | pinf, pinf => nan
  | pinf, ninf => nan
  | ninf, pinf => nan
  | ninf, ninf => nan

/-- Comparison `x < y`; false whenever an operand is a NaN. -/
def lt : F32 → F32 → Bool
  | fin a, fin b => decide (a < b)
  | fin _, pinf => true
  | ninf, fin _ => true
  | ninf, pinf => true
  | _, _ => false

/-- Conversion `size_t(x)` of a float: truncation towards zero.  Outside
`(-1, 2^64)` the conversion is undefined in C++; the embedding returns `0`
there. -/
def toSizeT : F32 → Nat
  | fin k => if 0 ≤ k ∧ k.toNat / one_units < 2 ^ 64 then k.toNat / one_units else 0
  | _ => 0

end F32

/-! ## Text -/

/-- The code unit `char16_t`. -/
abbrev Char := Fin 65536

/-- A `std::u16string`. -/
abbrev String := List Char

/-- A pair of iterators `[first, second)` into the text; an iterator
(`StringIt`) is a position, a `Nat`. -/
abbrev StringP := Nat × Nat

/-- The slice `String(first, second)` of the text between two iterators. -/
def slice (s : String) (first second : Nat) : String :=
  (s.drop first).take (second - first)

/-- The function `length`: `std::distance(w.first, w.second)`. -/
def length (w : StringP) : Nat := w.2 - w.1

/-! ## Trie -/

namespace Trie

/-- A `Trie::Node`: the transition map `trans_` and the flag `val_`. -/
inductive Node where
  | mk (trans_ : Char → Option Node) (val_ : Bool)

/-- Field `trans_`. -/
def Node.trans_ : Node → Char → Option Node
  | .mk t _ => t

/-- Field `val_`. -/
def Node.val_ : Node → Bool
  | .mk _ v => v

/-- The value of `new Node{}`: no transition, `val_ = false`. -/
def Node.new : Node := .mk (fun _ => none) false

/-- The loop of `Trie::add` from the node `current` on: follow or create the
transition for each code unit, then set `val_` on the node reached. -/
def add_loop : Node → String → Node
  | .mk t _, [] => .mk t true
  | .mk t v, ch :: word =>
    match t ch with
    | none => .mk (Function.update t ch (some (add_loop Node.new word))) v
    | some next => .mk (Function.update t ch (some (add_loop next word))) v

/-- The loop of `Trie::match_all`: `range` holds the code units from the
iterator `start` up to `end`, `current` is the node reached so far. -/
def match_loop (_start : Nat) : Node → String → Nat → List StringP → List StringP
  | _, [], _, ret => ret
  | current, ch :: range, start, ret =>
    match current.trans_ ch with
    | none => ret
    | some next =>
      match_loop _start next range (start + 1)
        (if next.val_ then ret ++ [(_start, start + 1)] else ret)

end Trie

/-- The dictionary `Trie`, holding its root node. -/
structure Trie where
  root_ : Trie.Node

namespace Trie

/-- The constructor `Trie()`. -/
def new : Trie := ⟨Node.new⟩

/-- The method `Trie::add`. -/
def add (t : Trie) (word : String) : Trie := ⟨add_loop t.root_ word⟩

/-- The method `Trie::match_all` on the text `s`. -/
def match_all (t : Trie) (s : String) (start end_ : Nat) : List StringP :=
  match_loop start t.root_ (slice s start end_) start []

end Trie

/-! ## Chunks -/

/-- The table `char_freqs_`. -/
abbrev FreqTable := Char → Option Int

/-- A `Chunk`: the words and the four statistics. -/
structure Chunk where
  words_ : List StringP
  length_ : Nat
  mean_ : F32
  var_ : F32
  degree_ : F32

/-- The constructor `Chunk(words, chars)`, over the text `s` the words point
into, with the library function `log`. -/
def Chunk.new (log : F32 → F32) (s : String) (words : List StringP) (chars : FreqTable) :
    Chunk :=
  let length_ := words.foldl (fun n w => n + length w) 0
  let mean_ := F32.div (F32.ofNat length_) (F32.ofNat words.length)
  let var_ := F32.div
    (F32.neg (words.foldl
      (fun acc w =>
        let n := F32.toSizeT acc
        F32.add (F32.ofNat n)
          (F32.mul (F32.sub (F32.ofNat (length w)) mean_) (F32.sub (F32.ofNat (length w)) mean_)))
      (F32.fin 0)))
    (F32.ofNat words.length)
  let degree_ := words.foldl
    (fun d w =>
      if length w ≠ 1 then d
      else match s.get? w.1 with
        | none => d
        | some ch =>
          match chars ch with
          | none => d
          | some freq => F32.add d (log (F32.ofInt freq)))
    (F32.fin 0)
  { words_ := words, length_ := length_, mean_ := mean_, var_ := var_, degree_ := degree_ }

/-- The comparison of `segment`:
`std::tie(x.length_, x.mean_, x.var_, x.degree_) < std::tie(y.length_, ...)`. -/
def Chunk.less (x y : Chunk) : Bool :=
  decide (x.length_ < y.length_) ||
    (!decide (y.length_ < x.length_) &&
      (F32.lt x.mean_ y.mean_ ||
        (!F32.lt y.mean_ x.mean_ &&
          (F32.lt x.var_ y.var_ ||
            (!F32.lt y.var_ x.var_ && F32.lt x.degree_ y.degree_)))))

/-- The algorithm `std::max_element(first, last, comp)`: `none` stands for the
iterator `last`, returned on an empty range. -/
def max_element {α : Type} (comp : α → α → Bool) : List α → Option α
  | [] => none
  | x :: xs => some (xs.foldl (fun largest y => if comp largest y then y else largest) x)

end MMSeg

/-- The state of an `MMSeg` object. -/
structure MMSeg where
  char_freqs_ : MMSeg.FreqTable
  dict_ : MMSeg.Trie

namespace MMSeg

/-- The closure `get_chunks_it` of `get_chunks`; `ret` is the vector captured
by reference and the result is its value when the call returns.  `none`: the
recursion budget ran out. -/
def get_chunks_it (self : MMSeg) (log : F32 → F32) (s : String) (end_ : Nat) :
    Nat → Nat → Int → List StringP → List Chunk → Option (List Chunk)
  | 0, start, n, segs, ret =>
    if n = 0 ∨ start = end_ then some (ret ++ [Chunk.new log s segs self.char_freqs_])
    else none
  | fuel + 1, start, n, segs, ret =>
    if n = 0 ∨ start = end_ then some (ret ++ [Chunk.new log s segs self.char_freqs_])
    else
      let m := self.dict_.match_all s start end_
      match m.foldlM
          (fun r w => get_chunks_it self log s end_ fuel (start + length w) (n - 1) (segs ++ [w]) r)
          ret with
      | none => none
      | some r =>
        get_chunks_it self log s end_ fuel (start + 1) (n - 1) (segs ++ [(start, start + 1)]) r

/-- The method `get_chunks`.  The recursion budget is the number of code units
between the two iterators. -/
def get_chunks (self : MMSeg) (log : F32 → F32) (s : String) (_start _end : Nat)
    (depth : Int) : Option (List Chunk) :=
  get_chunks_it self log s _end (_end - _start) _start depth [] []

/-- How a run of `segment` ends. -/
inductive Result (α : Type) where
  | ok (a : α)
  | undefined
  | out_of_fuel
  deriving DecidableEq, Repr

/-- The `while` loop of `segment`: `fuel` bounds the number of iterations of
the body.  `undefined`: the body dereferences `best` on an empty collection or
takes `front()` of an empty `words_`. -/
def segment_loop (self : MMSeg) (log : F32 → F32) (s : String) (depth : Int) :
    Nat → Nat → List String → Result (List String)
  | 0, start, ret => if start = s.length then .ok ret else .out_of_fuel
  | fuel + 1, start, ret =>
    if start = s.length then .ok ret
    else
      match get_chunks self log s start s.length depth with
      | none => .out_of_fuel
      | some chunks =>
        match max_element Chunk.less chunks with
        | none => .undefined
        | some best =>
          match best.words_ with
          | [] => .undefined
          | word :: _ =>
            segment_loop self log s depth fuel (start + length word)
              (ret ++ [slice s word.1 word.2])

/-- The method `segment` (the default of `depth` is `3`), its loop run for at
most `fuel` iterations. -/
def segment (self : MMSeg) (log : F32 → F32) (fuel : Nat) (s : String) (depth : Int) :
    Result (List String) :=
  segment_loop self log s depth fuel 0 []

/-- The dictionary obtained from the empty trie by a sequence of `add` calls, as
in the dictionary loop of `load` (a blank line gives the empty word). -/
def build (words : List String) : Trie := words.foldl Trie.add Trie.new

/-- The call `char_freqs_.emplace(ch, freq)`: the entry is inserted unless the
key is already present. -/
def emplace (chars : FreqTable) (ch : Char) (freq : Int) : FreqTable :=
  match chars ch with
  | some _ => chars
  | none => Function.update chars ch (some freq)

/-- The frequency loop of `load`: `entries` are the parsed lines in file order,
each the first code unit of the character field and the count. -/
def load_freqs (self : MMSeg) (entries : List (Char × Int)) : MMSeg :=
  ⟨entries.foldl (fun chars e => emplace chars e.1 e.2) self.char_freqs_, self.dict_⟩

/-! ## Reference definitions

These are not translations of the source; the theorems compare the source with
them. -/

/-- The node reached from `n` along the code units of `w`, if every transition
exists. -/
def Trie.walk : Trie.Node → String → Option Trie.Node
  | n, [] => some n
  | n, ch :: w =>
    match n.trans_ ch with
    | none => none
    | some next => Trie.walk next w

/-- Whether the path of `w` from `n` exists and ends in a node with `val_` set. -/
def Trie.has (n : Trie.Node) (w : String) : Bool :=
  match Trie.walk n w with
  | none => false
  | some m => m.val_

/-- The reference recursion of the enumerator: the chunks of all paths from
`start`, dictionary matches first (shortest first), then the single code unit. -/
def enum (self : MMSeg) (log : F32 → F32) (s : String) (end_ : Nat) :
    Nat → Nat → Int → List StringP → List Chunk
  | 0, start, n, path =>
    if n = 0 ∨ start = end_ then [Chunk.new log s path self.char_freqs_] else []
  | fuel + 1, start, n, path =>
    if n = 0 ∨ start = end_ then [Chunk.new log s path self.char_freqs_]
    else
      (self.dict_.match_all s start end_).flatMap
          (fun w => enum self log s end_ fuel w.2 (n - 1) (path ++ [w]))
        ++ enum self log s end_ fuel (start + 1) (n - 1) (path ++ [(start, start + 1)])

/-- The largest `k` with `1 ≤ k ≤ n` such that `s[pos, pos + k)` is one of
`words`, and `1` when there is none. -/
def longest_word (words : List String) (s : String) (pos : Nat) : Nat → Nat
  | 0 => 1
  | k + 1 => if slice s pos (pos + (k + 1)) ∈ words then k + 1 else longest_word words s pos k

/-- Plain greedy segmentation from the cursor `pos`: emit the longest
dictionary word at the cursor (a single code unit when there is none), advance
by its length; at most `fuel` words. -/
def greedy (words : List String) (s : String) : Nat → Nat → List String
  | 0, _ => []
  | fuel + 1, pos =>
    if s.length ≤ pos then []
    else
      let k := longest_word words s pos (s.length - pos)
      slice s pos (pos + k) :: greedy words s fuel (pos + k)

/-- The count of the last entry for `ch`, if there is one. -/
def last_count (entries : List (Char × Int)) (ch : Char) : Option Int :=
  (entries.reverse.find? (fun e => e.1 = ch)).map (fun e => e.2)

/-- The count of the first entry for `ch`, if there is one. -/
def first_count (entries : List (Char × Int)) (ch : Char) : Option Int :=
  (entries.find? (fun e => e.1 = ch)).map (fun e => e.2)

/-- Each span of the sequence begins where the previous one ends, the first at
`start`. -/
def contiguous : Nat → List StringP → Prop
  | _, [] => True
  | start, w :: rest => w.1 = start ∧ contiguous w.2 rest

/-- The position where a sequence of spans from `start` ends. -/
def path_end : Nat → List StringP → Nat
  | start, [] => start
  | _, w :: rest => path_end w.2 rest

/-- The `k` one-unit spans `[start, start + 1), [start + 1, start + 2), ...`. -/
def singles (start : Nat) : Nat → List StringP
  | 0 => []
  | k + 1 => (start, start + 1) :: singles (start + 1) k

/-- The value `x` is `+inf` or a finite value that is not negative. -/
def F32.nonneg : F32 → Prop
  | .fin k => 0 ≤ k
  | .pinf => True
  | _ => False

/-- The words of the worked example, 研究, 研究生, 生命 and 命运, as UTF-16 code units. -/
def example_words : List String :=
  [[0x7814, 0x7A76], [0x7814, 0x7A76, 0x751F], [0x751F, 0x547D], [0x547D, 0x8FD0]]

/-- The text of the worked example, 研究生命运. -/
def example_text : String := [0x7814, 0x7A76, 0x751F, 0x547D, 0x8FD0]

/-- The segmenter of the worked example: the dictionary of `example_words` and
an empty frequency table. -/
def example_seg : MMSeg := ⟨fun _ => none, build example_words⟩

theorem walk_new (w : String) (h : w ≠ []) : Trie.walk Trie.Node.new w = none := by
  cases w with
  | nil => exact absurd rfl h
  | cons c w => rfl

theorem has_new (w : String) : Trie.has Trie.Node.new w = false := by
  cases w with
  | nil => rfl
  | cons c w => rfl

theorem has_nil (n : Trie.Node) : Trie.has n [] = n.val_ := rfl

theorem has_cons (n : Trie.Node) (c : Char) (w : String) :
    Trie.has n (c :: w) = match n.trans_ c with
      | none => false
      | some next => Trie.has next w := by
  unfold Trie.has
  simp only [Trie.walk]
  cases n.trans_ c <;> rfl

/-- One `add` makes exactly the added word new: the words found afterwards are
the added one and those found before. -/
theorem has_add_loop (w : String) : ∀ (n : Trie.Node) (u : String),
    Trie.has (Trie.add_loop n w) u = (decide (u = w) || Trie.has n u) := by
  induction w with
  | nil =>
    intro n u
    obtain ⟨t, v⟩ := n
    cases u with
    | nil => simp [Trie.add_loop, has_nil, Trie.Node.val_]
    | cons c u => simp [Trie.add_loop, has_cons, Trie.Node.trans_]
  | cons ch w ih =>
    intro n u
    obtain ⟨t, v⟩ := n
    cases u with
    | nil =>
      cases h : t ch <;> simp [Trie.add_loop, h, has_nil, Trie.Node.val_]
    | cons c u =>
      by_cases hc : c = ch
      · subst hc
        cases h : t c <;>
          simp [Trie.add_loop, h, has_cons, Trie.Node.trans_, ih, has_new]
      · cases h : t ch <;>
          simp [Trie.add_loop, h, has_cons, Trie.Node.trans_, Function.update_noteq hc, hc]

/-- The words found in a built dictionary are the inserted ones. -/
theorem has_foldl_add (words : List String) : ∀ (t : Trie) (u : String),
    Trie.has (words.foldl Trie.add t).root_ u = (Trie.has t.root_ u || decide (u ∈ words)) := by
  induction words with
  | nil => intro t u; simp
  | cons w words ih =>
    intro t u
    rw [List.foldl_cons, ih, Trie.add, has_add_loop]
    by_cases h1 : u = w <;> by_cases h2 : u ∈ words <;> simp [h1, h2]

theorem has_build (words : List String) (u : String) :
    Trie.has (build words).root_ u = decide (u ∈ words) := by
  unfold build
  rw [has_foldl_add]
  simp [Trie.new, has_new]

theorem has_take_of_trans_none (cur : Trie.Node) (ch : Char) (r : String)
    (h : cur.trans_ ch = none) (i : Nat) : Trie.has cur ((ch :: r).take (i + 1)) = false := by
  simp [has_cons, h]

/-- The loop of `match_all` appends, in increasing length, the prefixes of the
range that are found from the current node. -/
theorem match_loop_eq (_start : Nat) (range : String) :
    ∀ (cur : Trie.Node) (pos : Nat) (ret : List StringP),
      Trie.match_loop _start cur range pos ret =
        ret ++ ((List.range range.length).filter
          (fun i => Trie.has cur (range.take (i + 1)))).map (fun i => (_start, pos + i + 1)) := by
  induction range with
  | nil => intro cur pos ret; simp [Trie.match_loop]
  | cons ch r ih =>
    intro cur pos ret
    rw [Trie.match_loop]
    cases h : cur.trans_ ch with
    | none =>
      have : (List.range (ch :: r).length).filter
          (fun i => Trie.has cur ((ch :: r).take (i + 1))) = [] := by
        rw [List.filter_eq_nil_iff]
        intro i _
        simp [has_cons, h]
      rw [this]; simp
    | some next =>
      simp only [ih, List.length_cons, List.range_succ_eq_map, List.filter_cons, List.take_succ_cons,
        has_cons, h, List.take_zero, has_nil, List.filter_map, List.map_map]
      cases next.val_ <;> simp [Function.comp_def, has_cons, h, Nat.add_assoc, Nat.add_comm 1]

theorem length_slice (s : String) (a b : Nat) (h : b ≤ s.length) :
    (slice s a b).length = b - a := by
  simp only [slice, List.length_take, List.length_drop]
  omega

theorem length_slice_le (s : String) (a b : Nat) : (slice s a b).length ≤ b - a := by
  simp only [slice, List.length_take, List.length_drop]
  omega

theorem take_slice (s : String) (a b k : Nat) (h : a + k ≤ b) :
    (slice s a b).take k = slice s a (a + k) := by
  simp only [slice, List.take_take, Nat.add_sub_cancel_left]
  congr 1
  omega

/-- The method `match_all` with the search of the trie spelled out. -/
theorem match_all_eq (t : Trie) (s : String) (start end_ : Nat) (h : end_ ≤ s.length) :
    t.match_all s start end_ =
      ((List.range (end_ - start)).filter
        (fun i => Trie.has t.root_ (slice s start (start + (i + 1))))).map
          (fun i => (start, start + (i + 1))) := by
  unfold Trie.match_all
  rw [match_loop_eq, length_slice s start end_ h, List.nil_append]
  congr 1
  apply List.filter_congr
  intro i hi
  rw [take_slice]
  have := List.mem_range.1 hi
  omega

/-- Every span returned by `match_all` starts at `start`, is not empty and ends
at or before `end`. -/
theorem mem_match_all (t : Trie) (s : String) (start end_ : Nat) (w : StringP)
    (h : w ∈ t.match_all s start end_) : w.1 = start ∧ start < w.2 ∧ w.2 ≤ end_ := by
  unfold Trie.match_all at h
  rw [match_loop_eq, List.nil_append, List.mem_map] at h
  obtain ⟨i, hi, rfl⟩ := h
  have h1 := List.mem_range.1 (List.mem_filter.1 hi).1
  have h2 := length_slice_le s start end_
  refine ⟨rfl, ?_, ?_⟩ <;> simp only <;> omega

theorem match_all_new (s : String) (start end_ : Nat) :
    Trie.new.match_all s start end_ = [] := by
  unfold Trie.match_all
  rw [match_loop_eq, List.nil_append]
  simp [Trie.new, has_new]

/-- The method `match_all` on a built dictionary: the spans of the inserted
words that start at `start`, by increasing length. -/
theorem match_all_build (words : List String) (s : String) (start end_ : Nat)
    (h : end_ ≤ s.length) :
    (build words).match_all s start end_ =
      ((List.range' 1 (end_ - start)).filter
        (fun k => decide (slice s start (start + k) ∈ words))).map
          (fun k => (start, start + k)) := by
  rw [match_all_eq _ _ _ _ h, List.range'_eq_map_range, List.filter_map, List.map_map]
  congr 1
  · funext i
    simp [Nat.add_comm 1]
  · apply List.filter_congr
    intro i _
    simp [has_build, Nat.add_comm 1]

/-! ## The enumerator -/

theorem foldlM_append_flatMap {α β : Type} (f : List β → α → Option (List β)) (g : α → List β)
    (l : List α) (h : ∀ w ∈ l, ∀ r, f r w = some (r ++ g w)) :
    ∀ ret, l.foldlM f ret = some (ret ++ l.flatMap g) := by
  induction l with
  | nil => intro ret; simp
  | cons w l ih =>
    intro ret
    rw [List.foldlM_cons, h w (List.mem_cons_self _ _) ret]
    simp only [Option.bind_eq_bind, Option.some_bind]
    rw [ih (fun w hw => h w (List.mem_cons_of_mem _ hw))]
    simp

/-- The closure `get_chunks_it` appends to `ret` the chunks of the reference
recursion, and never exhausts a budget of at least `end - start`. -/
theorem get_chunks_it_eq (self : MMSeg) (log : F32 → F32) (s : String) (end_ : Nat) :
    ∀ (fuel : Nat) (start : Nat) (n : Int) (segs : List StringP) (ret : List Chunk),
      start ≤ end_ → end_ - start ≤ fuel →
      get_chunks_it self log s end_ fuel start n segs ret =
        some (ret ++ enum self log s end_ fuel start n segs) := by
  intro fuel
  induction fuel with
  | zero =>
    intro start n segs ret h1 h2
    have : start = end_ := by omega
    simp [get_chunks_it, enum, this]
  | succ fuel ih =>
    intro start n segs ret h1 h2
    rw [get_chunks_it, enum]
    by_cases hb : n = 0 ∨ start = end_
    · simp [hb]
    · simp only [hb, if_false]
      have hne : start ≠ end_ := fun h => hb (Or.inr h)
      rw [foldlM_append_flatMap _
        (fun w => enum self log s end_ fuel w.2 (n - 1) (segs ++ [w]))]
      · simp only
        rw [ih _ _ _ _ (by omega) (by omega), List.append_assoc]
      · intro w hw r
        obtain ⟨e1, e2, e3⟩ := mem_match_all _ _ _ _ _ hw
        have : start + length w = w.2 := by unfold length; omega
        rw [this, ih _ _ _ _ e3 (by omega)]

theorem get_chunks_eq (self : MMSeg) (log : F32 → F32) (s : String) (_start _end : Nat)
    (depth : Int) (h : _start ≤ _end) :
    get_chunks self log s _start _end depth =
      some (enum self log s _end (_end - _start) _start depth []) := by
  unfold get_chunks
  rw [get_chunks_it_eq self log s _end _ _ _ _ _ h (le_refl _), List.nil_append]

theorem words_new (log : F32 → F32) (s : String) (words : List StringP) (chars : FreqTable) :
    (Chunk.new log s words chars).words_ = words := rfl

/-- Every enumerated chunk extends the path it was started with. -/
theorem enum_words_extend (self : MMSeg) (log : F32 → F32) (s : String) (end_ : Nat) :
    ∀ (fuel : Nat) (start : Nat) (n : Int) (path : List StringP),
      ∀ c ∈ enum self log s end_ fuel start n path, ∃ more, c.words_ = path ++ more := by
  intro fuel
  induction fuel with
  | zero =>
    intro start n path c hc
    rw [enum] at hc
    split at hc
    · rw [List.mem_singleton] at hc
      exact ⟨[], by rw [hc, words_new, List.append_nil]⟩
    · simp at hc
  | succ fuel ih =>
    intro start n path c hc
    rw [enum] at hc
    split at hc
    · rw [List.mem_singleton] at hc
      exact ⟨[], by rw [hc, words_new, List.append_nil]⟩
    · rw [List.mem_append, List.mem_flatMap] at hc
      rcases hc with ⟨w, _, hc⟩ | hc
      · obtain ⟨more, hm⟩ := ih _ _ _ c hc
        exact ⟨w :: more, by rw [hm, List.append_assoc, List.singleton_append]⟩
      · obtain ⟨more, hm⟩ := ih _ _ _ c hc
        exact ⟨(start, start + 1) :: more, by rw [hm, List.append_assoc, List.singleton_append]⟩

/-- Below the depth bound and before the end of the text, the word that
follows the path in an enumerated chunk is a dictionary match at `start` or the
single code unit at `start`. -/
theorem enum_next_word (self : MMSeg) (log : F32 → F32) (s : String) (end_ : Nat)
    (fuel : Nat) (start : Nat) (n : Int) (path : List StringP)
    (hn : n ≠ 0) (hs : start < end_) (hf : end_ - start ≤ fuel) :
    ∀ c ∈ enum self log s end_ fuel start n path, ∃ w rest, c.words_ = path ++ w :: rest ∧
      (w ∈ self.dict_.match_all s start end_ ∨ w = (start, start + 1)) := by
  intro c hc
  obtain ⟨fuel, rfl⟩ : ∃ k, fuel = k + 1 := ⟨fuel - 1, by omega⟩
  rw [enum] at hc
  have hb : ¬ (n = 0 ∨ start = end_) := by
    rintro (h | h)
    · exact hn h
    · omega
  simp only [hb, if_false] at hc
  rw [List.mem_append, List.mem_flatMap] at hc
  rcases hc with ⟨w, hw, hc⟩ | hc
  · obtain ⟨more, hm⟩ := enum_words_extend self log s end_ _ _ _ _ c hc
    exact ⟨w, more, by rw [hm, List.append_assoc, List.singleton_append], Or.inl hw⟩
  · obtain ⟨more, hm⟩ := enum_words_extend self log s end_ _ _ _ _ c hc
    exact ⟨_, more, by rw [hm, List.append_assoc, List.singleton_append], Or.inr rfl⟩

/-- The enumeration is never empty. -/
theorem enum_ne_nil (self : MMSeg) (log : F32 → F32) (s : String) (end_ : Nat) :
    ∀ (fuel : Nat) (start : Nat) (n : Int) (path : List StringP),
      start ≤ end_ → end_ - start ≤ fuel → enum self log s end_ fuel start n path ≠ [] := by
  intro fuel
  induction fuel with
  | zero =>
    intro start n path h1 h2
    have : start = end_ := by omega
    simp [enum, this]
  | succ fuel ih =>
    intro start n path h1 h2
    rw [enum]
    split
    · simp
    · rename_i hb
      have hne : start ≠ end_ := fun h => hb (Or.inr h)
      intro h
      exact ih (start + 1) (n - 1) _ (by omega) (by omega) (List.append_eq_nil.1 h).2

/-! ## Selection -/

theorem foldl_max_mem {α : Type} (comp : α → α → Bool) (xs : List α) :
    ∀ x, xs.foldl (fun largest y => if comp largest y then y else largest) x ∈ x :: xs := by
  induction xs with
  | nil => intro x; simp
  | cons y ys ih =>
    intro x
    rw [List.foldl_cons]
    by_cases h : comp x y
    · simp only [h, if_true]
      exact List.mem_cons_of_mem _ (ih y)
    · have hx : (if comp x y = true then y else x) = x := if_neg h
      rw [hx]
      rcases List.mem_cons.1 (ih x) with h' | h'
      · rw [h']; exact List.mem_cons_self _ _
      · exact List.mem_cons_of_mem _ (List.mem_cons_of_mem _ h')

theorem max_element_mem {α : Type} (comp : α → α → Bool) (l : List α) (hl : l ≠ []) :
    ∃ best, max_element comp l = some best ∧ best ∈ l := by
  cases l with
  | nil => exact absurd rfl hl
  | cons x xs => exact ⟨_, rfl, foldl_max_mem comp xs x⟩

/-! ## The driver -/

/-- One iteration of the loop of `segment`, when the selected chunk is known. -/
theorem segment_loop_succ (self : MMSeg) (log : F32 → F32) (s : String) (depth : Int)
    (fuel start : Nat) (ret : List String) (best : Chunk) (w : StringP) (rest : List StringP)
    (hs : start < s.length)
    (hbest : max_element Chunk.less
      (enum self log s s.length (s.length - start) start depth []) = some best)
    (hw : best.words_ = w :: rest) :
    segment_loop self log s depth (fuel + 1) start ret =
      segment_loop self log s depth fuel (start + length w) (ret ++ [slice s w.1 w.2]) := by
  rw [segment_loop, if_neg (by omega), get_chunks_eq self log s start s.length depth (by omega)]
  simp only [hbest, hw]

/-- One iteration of the loop of `segment` for a depth other than `0`: a chunk
of the enumeration is selected, its first word, a dictionary match at the
cursor or the single code unit there, is emitted and the cursor moves to its
end. -/
theorem segment_loop_step (self : MMSeg) (log : F32 → F32) (s : String) (depth : Int)
    (hd : depth ≠ 0) (fuel start : Nat) (ret : List String) (hs : start < s.length) :
    ∃ e, (start < e ∧ e ≤ s.length) ∧
      ((start, e) ∈ self.dict_.match_all s start s.length ∨ e = start + 1) ∧
      segment_loop self log s depth (fuel + 1) start ret =
        segment_loop self log s depth fuel e (ret ++ [slice s start e]) := by
  obtain ⟨best, hbest, hmem⟩ := max_element_mem Chunk.less _
    (enum_ne_nil self log s s.length (s.length - start) start depth [] (by omega) (le_refl _))
  obtain ⟨w, rest, hw, hor⟩ := enum_next_word self log s s.length _ start depth [] hd hs
    (le_refl _) best hmem
  rw [List.nil_append] at hw
  have hstep := segment_loop_succ self log s depth fuel start ret best w rest hs hbest hw
  rcases hor with h | h
  · obtain ⟨e1, e2, e3⟩ := mem_match_all _ _ _ _ _ h
    obtain ⟨a, e⟩ := w
    simp only at e1 e2 e3
    subst e1
    refine ⟨e, ⟨e2, e3⟩, Or.inl h, ?_⟩
    rw [hstep]
    congr 1
    simp only [length]; omega
  · refine ⟨start + 1, ⟨by omega, by omega⟩, Or.inr rfl, ?_⟩
    rw [hstep, h]
    congr 1
    simp only [length]; omega

/-- The loop of `segment` for a depth other than `0`, from any cursor: with a
budget of as many iterations as code units are left it returns, and the words
it appends are non-empty and spell the rest of the text. -/
theorem segment_loop_inv (self : MMSeg) (log : F32 → F32) (s : String) (depth : Int)
    (hd : depth ≠ 0) : ∀ (fuel start : Nat) (ret : List String),
      start ≤ s.length → s.length - start ≤ fuel →
      ∃ ws, segment_loop self log s depth fuel start ret = .ok (ret ++ ws) ∧
        ws.flatten = s.drop start ∧ (∀ w ∈ ws, 1 ≤ w.length) ∧ ws.length ≤ s.length - start := by
  intro fuel
  induction fuel with
  | zero =>
    intro start ret h1 h2
    have : start = s.length := by omega
    exact ⟨[], by simp [segment_loop, this]⟩
  | succ fuel ih =>
    intro start ret h1 h2
    by_cases hs : start = s.length
    · exact ⟨[], by simp [segment_loop, hs]⟩
    · obtain ⟨e, ⟨he1, he2⟩, _, hstep⟩ :=
        segment_loop_step self log s depth hd fuel start ret (by omega)
      obtain ⟨ws, h1, h2, h3, h4⟩ := ih e (ret ++ [slice s start e]) he2 (by omega)
      refine ⟨slice s start e :: ws, ?_, ?_, ?_, ?_⟩
      · rw [hstep, h1, List.append_assoc, List.singleton_append]
      · rw [List.flatten_cons, h2, slice]
        have : s.drop e = (s.drop start).drop (e - start) := by
          rw [List.drop_drop]; congr 1; omega
        rw [this, List.take_append_drop]
      · intro w hw
        rcases List.mem_cons.1 hw with h | h
        · rw [h, length_slice s start e he2]; omega
        · exact h3 w h
      · rw [List.length_cons]; omega

/-! ## Properties of `segment` and `match_all` -/

/-- C1 (coverage): for every text, dictionary, frequency table and depth of at
least 1, `segment` returns words whose concatenation, in order, is the text. -/
theorem segment_coverage (self : MMSeg) (log : F32 → F32) (s : String) (depth : Int)
    (fuel : Nat) (hd : 1 ≤ depth) (hf : s.length ≤ fuel) :
    ∃ words, segment self log fuel s depth = .ok words ∧ words.flatten = s := by
  obtain ⟨ws, h1, h2, _, _⟩ :=
    segment_loop_inv self log s depth (by omega) fuel 0 [] (Nat.zero_le _) (by omega)
  exact ⟨ws, by rw [segment, h1, List.nil_append], by rw [h2, List.drop_zero]⟩

theorem segment_coverage_witness :
    (1 : Int) ≤ 3 ∧ example_text.length ≤ 5 ∧
      ∃ words, segment example_seg (fun x => x) 5 example_text 3 = .ok words ∧
        words.flatten = example_text :=
  ⟨by decide, by decide,
    segment_coverage example_seg (fun x => x) example_text 3 5 (by decide) (by decide)⟩

/-- C2 (termination and progress): for every text, dictionary, frequency table
and depth of at least 1, the loop of `segment` returns within `len(t)`
iterations (any budget of at least `len(t)` iterations is enough), every
returned word has at least one code unit and there are at most `len(t)` words. -/
theorem segment_terminates (self : MMSeg) (log : F32 → F32) (s : String) (depth : Int)
    (fuel : Nat) (hd : 1 ≤ depth) (hf : s.length ≤ fuel) :
    ∃ words, segment self log fuel s depth = .ok words ∧
      (∀ w ∈ words, 1 ≤ w.length) ∧ words.length ≤ s.length := by
  obtain ⟨ws, h1, _, h3, h4⟩ :=
    segment_loop_inv self log s depth (by omega) fuel 0 [] (Nat.zero_le _) (by omega)
  exact ⟨ws, by rw [segment, h1, List.nil_append], h3, by omega⟩

theorem segment_terminates_witness :
    (1 : Int) ≤ 3 ∧ example_text.length ≤ example_text.length ∧
      ∃ words, segment example_seg (fun x => x) example_text.length example_text 3 = .ok words ∧
        (∀ w ∈ words, 1 ≤ w.length) ∧ words.length ≤ example_text.length :=
  ⟨by decide, le_refl _,
    segment_terminates example_seg (fun x => x) example_text 3 example_text.length
      (by decide) (le_refl _)⟩

theorem slice_one (s : String) (start : Nat) (h : start < s.length) :
    slice s start (start + 1) = [s[start]] := by
  simp only [slice, Nat.add_sub_cancel_left]
  rw [List.drop_eq_getElem_cons h]
  rfl

/-- The loop of `segment` over the empty dictionary emits the code units left,
one by one. -/
theorem segment_loop_new (chars : FreqTable) (log : F32 → F32) (s : String) (depth : Int)
    (hd : depth ≠ 0) : ∀ (fuel start : Nat) (ret : List String),
      start ≤ s.length → s.length - start ≤ fuel →
      segment_loop ⟨chars, Trie.new⟩ log s depth fuel start ret =
        .ok (ret ++ (s.drop start).map (fun c => [c])) := by
  intro fuel
  induction fuel with
  | zero =>
    intro start ret h1 h2
    have : start = s.length := by omega
    simp [segment_loop, this]
  | succ fuel ih =>
    intro start ret h1 h2
    by_cases hs : start = s.length
    · simp [segment_loop, hs]
    · have hlt : start < s.length := by omega
      obtain ⟨e, ⟨he1, he2⟩, hor, hstep⟩ :=
        segment_loop_step ⟨chars, Trie.new⟩ log s depth hd fuel start ret hlt
      have he : e = start + 1 := by
        rcases hor with h | h
        · rw [match_all_new] at h
          exact absurd h (List.not_mem_nil _)
        · exact h
      subst he
      rw [hstep, ih _ _ he2 (by omega), slice_one s start hlt, List.drop_eq_getElem_cons hlt,
        List.map_cons, List.append_assoc, List.singleton_append]

/-- C6 (empty-dictionary fallback): with no word inserted, for every text,
frequency table and depth of at least 1, `segment` returns the `len(t)`
one-code-unit words `[t[0]], [t[1]], ...`. -/
theorem segment_empty_dictionary (chars : FreqTable) (log : F32 → F32) (s : String)
    (depth : Int) (fuel : Nat) (hd : 1 ≤ depth) (hf : s.length ≤ fuel) :
    segment ⟨chars, Trie.new⟩ log fuel s depth = .ok (s.map (fun c => [c])) := by
  rw [segment, segment_loop_new chars log s depth (by omega) fuel 0 [] (Nat.zero_le _) (by omega)]
  simp

theorem segment_empty_dictionary_witness :
    (1 : Int) ≤ 2 ∧ example_text.length ≤ 7 ∧
      segment ⟨fun _ => some 5, Trie.new⟩ (fun x => x) 7 example_text 2 =
        .ok (example_text.map (fun c => [c])) :=
  ⟨by decide, by decide,
    segment_empty_dictionary (fun _ => some 5) (fun x => x) example_text 2 7
      (by decide) (by decide)⟩

/-- C7 (depth 0), as the code behaves: on a non-empty text `segment(t, 0)`
selects the chunk without words that `get_chunks` returns for depth 0 and takes
`front()` of its empty `words_`, which is undefined; no word is returned. -/
theorem segment_depth_zero_undefined (self : MMSeg) (log : F32 → F32) (fuel : Nat)
    (c : Char) (s : String) :
    segment self log (fuel + 1) (c :: s) 0 = .undefined := by
  rw [segment, segment_loop, if_neg (by simp),
    get_chunks_eq self log (c :: s) 0 (c :: s).length 0 (Nat.zero_le _)]
  simp [enum, max_element, words_new]

/-- C8 (empty input): for every dictionary, frequency table and integer depth,
`segment` of the empty text returns no word. -/
theorem segment_nil (self : MMSeg) (log : F32 → F32) (fuel : Nat) (depth : Int) :
    segment self log fuel [] depth = .ok [] := by
  cases fuel <;> simp [segment, segment_loop]

/-- C9 (prefix-match exactness): for the dictionary built by any sequence of
`add` calls with the words `words`, `match_all(start, end)` returns the spans
`[start, start + k)`, for `k = 1, ..., end - start` in increasing order, whose
text `s[start, start + k)` is one of `words`, each once and no other span. -/
theorem match_all_exact (words : List String) (s : String) (start end_ : Nat)
    (h : end_ ≤ s.length) :
    (build words).match_all s start end_ =
      ((List.range' 1 (end_ - start)).filter
        (fun k => decide (slice s start (start + k) ∈ words))).map
          (fun k => (start, start + k)) :=
  match_all_build words s start end_ h

theorem match_all_exact_witness :
    5 ≤ example_text.length ∧
      (build example_words).match_all example_text 0 5 =
        ((List.range' 1 (5 - 0)).filter
          (fun k => decide (slice example_text 0 (0 + k) ∈ example_words))).map
            (fun k => (0, 0 + k)) :=
  ⟨by decide, match_all_exact example_words example_text 0 5 (by decide)⟩

theorem max_element_concat {α : Type} (comp : α → α → Bool) (l : List α) (y : α) :
    max_element comp (l ++ [y]) =
      match max_element comp l with
      | none => some y
      | some b => some (if comp b y then y else b) := by
  cases l with
  | nil => rfl
  | cons x xs => simp [max_element, List.foldl_append]

theorem enum_zero (self : MMSeg) (log : F32 → F32) (s : String) (end_ : Nat) (fuel start : Nat)
    (path : List StringP) :
    enum self log s end_ fuel start 0 path = [Chunk.new log s path self.char_freqs_] := by
  cases fuel <;> simp [enum]

theorem enum_end (self : MMSeg) (log : F32 → F32) (s : String) (end_ : Nat) (fuel : Nat)
    (n : Int) (path : List StringP) :
    enum self log s end_ fuel end_ n path = [Chunk.new log s path self.char_freqs_] := by
  cases fuel <;> simp [enum]

theorem enum_succ (self : MMSeg) (log : F32 → F32) (s : String) (end_ : Nat) (fuel start : Nat)
    (n : Int) (path : List StringP) (hn : n ≠ 0) (hs : start ≠ end_) :
    enum self log s end_ (fuel + 1) start n path =
      (self.dict_.match_all s start end_).flatMap
          (fun w => enum self log s end_ fuel w.2 (n - 1) (path ++ [w]))
        ++ enum self log s end_ fuel (start + 1) (n - 1) (path ++ [(start, start + 1)]) := by
  rw [enum, if_neg]
  rintro (h | h)
  · exact hn h
  · exact hs h

/-- The chunks enumerated for depth 1: one per dictionary match, then the single
code unit. -/
theorem enum_depth_one (self : MMSeg) (log : F32 → F32) (s : String) (end_ : Nat)
    (fuel start : Nat) (hs : start < end_) (hf : 1 ≤ fuel) :
    enum self log s end_ fuel start 1 [] =
      (self.dict_.match_all s start end_).map (fun w => Chunk.new log s [w] self.char_freqs_)
        ++ [Chunk.new log s [(start, start + 1)] self.char_freqs_] := by
  obtain ⟨fuel, rfl⟩ : ∃ k, fuel = k + 1 := ⟨fuel - 1, by omega⟩
  rw [enum_succ self log s end_ fuel start 1 [] (by decide) (by omega)]
  simp only [sub_self, enum_zero, List.nil_append]
  congr 1
  induction self.dict_.match_all s start end_ with
  | nil => rfl
  | cons w l ih => simp [List.flatMap_cons, ih]

theorem f32_lt_irrefl (x : F32) : F32.lt x x = false := by
  cases x <;> simp [F32.lt]

theorem less_irrefl (x : Chunk) : Chunk.less x x = false := by
  simp [Chunk.less, f32_lt_irrefl]

theorem less_of_length_lt (x y : Chunk) (h : x.length_ < y.length_) : Chunk.less x y = true := by
  simp [Chunk.less, h]

theorem not_less_of_length_lt (x y : Chunk) (h : y.length_ < x.length_) :
    Chunk.less x y = false := by
  have : ¬ x.length_ < y.length_ := by omega
  simp [Chunk.less, h, this]

theorem length_new_single (log : F32 → F32) (s : String) (chars : FreqTable) (a k : Nat) :
    (Chunk.new log s [(a, a + k)] chars).length_ = k := by
  simp [Chunk.new, length]

theorem longest_word_bounds (words : List String) (s : String) (pos : Nat) :
    ∀ n, 1 ≤ longest_word words s pos n ∧ longest_word words s pos n ≤ max 1 n := by
  intro n
  induction n with
  | zero => simp [longest_word]
  | succ n ih =>
    rw [longest_word]
    split
    · omega
    · omega

/-- The selection among the one-word chunks of the first `n` candidate
lengths: the chunk of the longest dictionary word, if there is a word. -/
theorem max_element_single_words (log : F32 → F32) (s : String) (chars : FreqTable)
    (words : List String) (start : Nat) : ∀ n,
    (max_element Chunk.less
        (((List.range' 1 n).filter (fun k => decide (slice s start (start + k) ∈ words))).map
          (fun k => Chunk.new log s [(start, start + k)] chars)) = none ∧
      longest_word words s start n = 1) ∨
    (max_element Chunk.less
        (((List.range' 1 n).filter (fun k => decide (slice s start (start + k) ∈ words))).map
          (fun k => Chunk.new log s [(start, start + k)] chars)) =
        some (Chunk.new log s [(start, start + longest_word words s start n)] chars) ∧
      longest_word words s start n ≤ n) := by
  intro n
  induction n with
  | zero => left; simp [max_element, longest_word]
  | succ n ih =>
    rw [List.range'_1_concat, List.filter_append, List.map_append, longest_word, Nat.add_comm 1 n]
    by_cases hP : slice s start (start + (n + 1)) ∈ words
    · right
      simp only [hP, if_true, List.filter_cons, decide_True, List.filter_nil, List.map_cons,
        List.map_nil, max_element_concat, le_refl, and_true]
      rcases ih with ⟨h1, _⟩ | ⟨h1, h2⟩
      · rw [h1]
      · rw [h1]
        simp only
        rw [less_of_length_lt _ _ (by rw [length_new_single, length_new_single]; omega)]
        rfl
    · simp only [hP, if_false, List.filter_cons, decide_False, List.filter_nil, List.map_nil,
        List.append_nil, Bool.false_eq_true]
      rcases ih with h | ⟨h1, h2⟩
      · left; exact h
      · right; exact ⟨h1, by omega⟩

/-- The selection for depth 1 on a built dictionary: the chunk of the longest
dictionary word at the cursor, or of the single code unit. -/
theorem max_element_depth_one (chars : FreqTable) (log : F32 → F32) (words : List String)
    (s : String) (start : Nat) (hs : start < s.length) :
    max_element Chunk.less
        (enum ⟨chars, build words⟩ log s s.length (s.length - start) start 1 []) =
      some (Chunk.new log s
        [(start, start + longest_word words s start (s.length - start))] chars) := by
  rw [enum_depth_one _ log s s.length _ start hs (by omega),
    match_all_build words s start s.length (le_refl _), List.map_map, max_element_concat]
  have hb := longest_word_bounds words s start (s.length - start)
  rcases max_element_single_words log s chars words start (s.length - start) with
    ⟨h1, h2⟩ | ⟨h1, h2⟩
  · simp only [Function.comp_def] at h1 ⊢
    rw [h1, h2]
  · simp only [Function.comp_def] at h1 ⊢
    rw [h1]
    simp only
    by_cases h : longest_word words s start (s.length - start) = 1
    · rw [h, less_irrefl]; rfl
    · rw [not_less_of_length_lt _ _ (by rw [length_new_single, length_new_single]; omega)]
      rfl

theorem greedy_done (words : List String) (s : String) (fuel pos : Nat)
    (h : s.length ≤ pos) : greedy words s fuel pos = [] := by
  cases fuel <;> simp [greedy, h]

/-- The loop of `segment` at depth 1 on a built dictionary is the greedy
segmentation from the cursor. -/
theorem segment_loop_greedy (chars : FreqTable) (log : F32 → F32) (words : List String)
    (s : String) : ∀ (fuel budget start : Nat) (ret : List String),
      start ≤ s.length → s.length - start ≤ fuel → s.length - start ≤ budget →
      segment_loop ⟨chars, build words⟩ log s 1 fuel start ret =
        .ok (ret ++ greedy words s budget start) := by
  intro fuel
  induction fuel with
  | zero =>
    intro budget start ret h1 h2 _
    have : start = s.length := by omega
    simp [segment_loop, this, greedy_done]
  | succ fuel ih =>
    intro budget start ret h1 h2 h3
    by_cases hs : start = s.length
    · simp [segment_loop, hs, greedy_done]
    · have hlt : start < s.length := by omega
      obtain ⟨budget, rfl⟩ : ∃ k, budget = k + 1 := ⟨budget - 1, by omega⟩
      have hb := longest_word_bounds words s start (s.length - start)
      rw [segment_loop_succ _ log s 1 fuel start ret _ _ []
        hlt (max_element_depth_one chars log words s start hlt) rfl]
      have hlen : start + length (start, start + longest_word words s start (s.length - start))
          = start + longest_word words s start (s.length - start) := by
        simp [length]
      rw [hlen, ih budget _ _ (by omega) (by omega) (by omega), greedy, if_neg (by omega)]
      simp

/-- C3 (depth 1 is greedy longest match): for every text, every dictionary
built by `add` calls and every frequency table, `segment(t, 1)` is the greedy
segmentation that emits, at each cursor position, the longest inserted word
starting there, or the single code unit when there is none. -/
theorem segment_depth_one_greedy (chars : FreqTable) (log : F32 → F32) (words : List String)
    (s : String) (extra : Nat) :
    segment ⟨chars, build words⟩ log (s.length + extra) s 1 =
      .ok (greedy words s s.length 0) := by
  rw [segment, segment_loop_greedy chars log words s _ s.length 0 [] (Nat.zero_le _) (by omega)
    (by omega), List.nil_append]

theorem foldl_max_const {α : Type} (comp : α → α → Bool) (x : α) (l : List α)
    (h : ∀ y ∈ l, comp x y = false) :
    l.foldl (fun largest y => if comp largest y then y else largest) x = x := by
  induction l with
  | nil => rfl
  | cons y l ih =>
    rw [List.foldl_cons, h y (List.mem_cons_self _ _)]
    exact ih (fun z hz => h z (List.mem_cons_of_mem _ hz))

/-- Selection in a collection made of copies of one chunk `a` around a chunk `b`
that is greater. -/
theorem max_element_around {α : Type} (comp : α → α → Bool) (a b : α) (xs ys : List α)
    (hxs : xs ≠ []) (hx : ∀ c ∈ xs, c = a) (hy : ∀ c ∈ ys, c = a)
    (haa : comp a a = false) (hab : comp a b = true) (hba : comp b a = false) :
    max_element comp (xs ++ b :: ys) = some b := by
  cases xs with
  | nil => exact absurd rfl hxs
  | cons x xs =>
    have hxa : x = a := hx x (List.mem_cons_self _ _)
    subst hxa
    rw [List.cons_append, max_element, List.foldl_append,
      foldl_max_const comp x xs (fun y hy' => by
        rw [hx y (List.mem_cons_of_mem _ hy')]; exact haa),
      List.foldl_cons, hab]
    simp only [if_true]
    rw [foldl_max_const comp b ys (fun y hy' => by rw [hy y hy']; exact hba)]

theorem less_two_singles (log : F32 → F32) (s : String) (chars : FreqTable) :
    Chunk.less (Chunk.new log s [(0, 1), (1, 2)] chars) (Chunk.new log s [(0, 2)] chars) = true :=
  rfl

theorem not_less_two_singles (log : F32 → F32) (s : String) (chars : FreqTable) :
    Chunk.less (Chunk.new log s [(0, 2)] chars) (Chunk.new log s [(0, 1), (1, 2)] chars) = false :=
  rfl

theorem match_all_two (words : List String) (a b : Char) (ha : [a] ∈ words)
    (hab : [a, b] ∈ words) :
    (build words).match_all [a, b] 0 2 = [(0, 1), (0, 2)] := by
  rw [match_all_build words [a, b] 0 2 (le_refl _)]
  simp [List.range', slice, ha, hab]

/-- The chunks enumerated after the one-unit word `[0, 1)` of a two-unit text are
all the same chunk. -/
theorem enum_after_first (self : MMSeg) (log : F32 → F32) (s : String) (n : Int) :
    enum self log s 2 1 1 n [(0, 1)] ≠ [] ∧
    ((∀ c ∈ enum self log s 2 1 1 n [(0, 1)],
        c = Chunk.new log s [(0, 1)] self.char_freqs_) ∧ n = 0 ∨
     (∀ c ∈ enum self log s 2 1 1 n [(0, 1)],
        c = Chunk.new log s [(0, 1), (1, 2)] self.char_freqs_) ∧ n ≠ 0) := by
  refine ⟨enum_ne_nil self log s 2 1 1 n _ (by omega) (by omega), ?_⟩
  by_cases hn : n = 0
  · left
    subst hn
    rw [enum_zero]
    simp
  · right
    refine ⟨?_, hn⟩
    intro c hc
    rw [enum_succ self log s 2 0 1 n _ hn (by omega), List.mem_append, List.mem_flatMap] at hc
    rcases hc with ⟨w, hw, hc⟩ | hc
    · obtain ⟨e1, e2, e3⟩ := mem_match_all _ _ _ _ _ hw
      obtain ⟨w1, w2⟩ := w
      simp only at e1 e2 e3
      have h2 : w2 = 2 := by omega
      subst e1 h2
      rw [enum_end] at hc
      simpa using hc
    · rw [enum_end] at hc
      simpa using hc

/-- C4 (longest-match preference): when the dictionary holds both the
one-unit word `[a]` and the two-unit word `[a, b]`, for every frequency table
and depth of at least 1, `segment([a, b], depth)` is the single word `[a, b]`. -/
theorem segment_prefers_longest (chars : FreqTable) (log : F32 → F32) (words : List String)
    (a b : Char) (depth : Int) (fuel : Nat) (ha : [a] ∈ words) (hab : [a, b] ∈ words)
    (hd : 1 ≤ depth) :
    segment ⟨chars, build words⟩ log (fuel + 1) [a, b] depth = .ok [[a, b]] := by
  have hbest : max_element Chunk.less
      (enum ⟨chars, build words⟩ log [a, b] [a, b].length ([a, b].length - 0) 0 depth []) =
      some (Chunk.new log [a, b] [(0, 2)] chars) := by
    simp only [List.length_cons, List.length_nil, Nat.sub_zero, Nat.zero_add, Nat.reduceAdd]
    rw [enum_succ _ log [a, b] 2 1 0 depth [] (by omega) (by omega),
      match_all_two words a b ha hab]
    simp only [List.flatMap_cons, List.flatMap_nil, List.nil_append, List.append_nil, enum_end,
      Nat.zero_add, List.append_assoc, List.singleton_append]
    obtain ⟨hne, h⟩ := enum_after_first ⟨chars, build words⟩ log [a, b] (depth - 1)
    rcases h with ⟨h, _⟩ | ⟨h, _⟩
    · exact max_element_around Chunk.less _ _ _ _ hne h h (less_irrefl _)
        (less_of_length_lt _ _ (by
          rw [length_new_single log [a, b] chars 0 1, length_new_single log [a, b] chars 0 2]
          omega))
        (not_less_of_length_lt _ _ (by
          rw [length_new_single log [a, b] chars 0 1, length_new_single log [a, b] chars 0 2]
          omega))
    · exact max_element_around Chunk.less _ _ _ _ hne h h (less_irrefl _)
        (less_two_singles log [a, b] chars) (not_less_two_singles log [a, b] chars)
  rw [segment, segment_loop_succ _ log [a, b] depth fuel 0 [] _ _ [] (by simp) hbest rfl]
  cases fuel <;> simp [segment_loop, length, slice]

theorem segment_prefers_longest_witness :
    ([0x41] : String) ∈ [[0x41, 0x42], [0x41]] ∧ ([0x41, 0x42] : String) ∈ [[0x41, 0x42], [0x41]] ∧
      (1 : Int) ≤ 3 ∧
      segment ⟨fun _ => none, build [[0x41, 0x42], [0x41]]⟩ (fun x => x) (0 + 1) [0x41, 0x42] 3 =
        .ok [[0x41, 0x42]] :=
  ⟨by decide, by decide, by decide,
    segment_prefers_longest (fun _ => none) (fun x => x) [[0x41, 0x42], [0x41]] 0x41 0x42 3 0
      (by decide) (by decide) (by decide)⟩

/-! ## Binary32: finiteness and order -/

namespace F32

end F32

namespace F32

theorem roundPos_nonneg (N D : Nat) : nonneg (roundPos N D) := by
  unfold roundPos
  simp only
  split
  · trivial
  · exact Int.ofNat_nonneg _

end F32
theorem ofNat_nonneg (n : Nat) : F32.nonneg (F32.ofNat n) := F32.roundPos_nonneg _ _

theorem emplace_of_some (chars : FreqTable) (ch : Char) (freq v : Int) (c : Char)
    (h : chars c = some v) : emplace chars ch freq c = some v := by
  unfold emplace
  cases hch : chars ch with
  | some _ => exact h
  | none =>
    simp only
    rw [Function.update_noteq]
    · exact h
    · intro hc
      rw [hc, hch] at h
      cases h

theorem foldl_emplace_of_some (entries : List (Char × Int)) :
    ∀ (chars : FreqTable) (c : Char) (v : Int), chars c = some v →
      entries.foldl (fun chars e => emplace chars e.1 e.2) chars c = some v := by
  induction entries with
  | nil => intro chars c v h; exact h
  | cons e entries ih =>
    intro chars c v h
    rw [List.foldl_cons]
    exact ih _ c v (emplace_of_some chars e.1 e.2 v c h)

/-- After the frequency loop a code unit has the count it had before, or else
the count of the first entry for it. -/
theorem foldl_emplace_eq (entries : List (Char × Int)) :
    ∀ (chars : FreqTable) (c : Char),
      entries.foldl (fun chars e => emplace chars e.1 e.2) chars c =
        match chars c with
        | some v => some v
        | none => first_count entries c := by
  induction entries with
  | nil =>
    intro chars c
    rw [List.foldl_nil]
    cases h : chars c <;> simp [first_count]
  | cons e entries ih =>
    intro chars c
    rw [List.foldl_cons]
    cases h : chars c with
    | some v => exact foldl_emplace_of_some entries _ c v (emplace_of_some chars e.1 e.2 v c h)
    | none =>
      simp only
      by_cases hc : e.1 = c
      · have h1 : emplace chars e.1 e.2 c = some e.2 := by
          unfold emplace
          rw [hc, h]
          simp
        rw [foldl_emplace_of_some entries _ c e.2 h1]
        simp [first_count, List.find?_cons, hc]
      · have h1 : emplace chars e.1 e.2 c = none := by
          unfold emplace
          cases chars e.1 with
          | some _ => exact h
          | none =>
            simp only
            rw [Function.update_noteq (fun h' => hc h'.symm)]
            exact h
        rw [ih, h1]
        simp [first_count, List.find?_cons, hc]

/-- C11 (frequency-table duplicates), as the code behaves: `emplace` never
overwrites, so after `load` has processed the entries in order the count of a
code unit that was not in the table before is the count of the FIRST entry for
it (first insertion wins), and a count already in the table is kept. -/
theorem load_freqs_first_wins (self : MMSeg) (entries : List (Char × Int)) (ch : Char) :
    (load_freqs self entries).char_freqs_ ch =
      match self.char_freqs_ ch with
      | some v => some v
      | none => first_count entries ch :=
  foldl_emplace_eq entries self.char_freqs_ ch

/-- C11, counterexample: for the lines `A 1`, `A 2` loaded into an empty table
the count of `A` is 1, not the count 2 of the last line. -/
theorem load_freqs_not_last_wins :
    (load_freqs ⟨fun _ => none, Trie.new⟩ [(0x41, 1), (0x41, 2)]).char_freqs_ 0x41 = some 1 ∧
      last_count [(0x41, 1), (0x41, 2)] 0x41 = some 2 ∧
      (load_freqs ⟨fun _ => none, Trie.new⟩ [(0x41, 1), (0x41, 2)]).char_freqs_ 0x41 ≠
        last_count [(0x41, 1), (0x41, 2)] 0x41 := by
  decide

/-! ## The dictionary as a set of words -/

theorem add_loop_idem (w : String) : ∀ n : Trie.Node,
    Trie.add_loop (Trie.add_loop n w) w = Trie.add_loop n w := by
  induction w with
  | nil =>
    intro n
    obtain ⟨t, v⟩ := n
    simp [Trie.add_loop]
  | cons ch w ih =>
    intro n
    obtain ⟨t, v⟩ := n
    cases h : t ch <;> simp [Trie.add_loop, h, ih]

/-- C13 (insert is idempotent): for every trie and every word `w`, `add(w)`
performed twice gives the same trie as `add(w)` performed once, hence the same
`match_all` results. -/
theorem add_idempotent (t : Trie) (w : String) :
    (t.add w).add w = t.add w ∧
      ∀ (s : String) (start end_ : Nat),
        ((t.add w).add w).match_all s start end_ = (t.add w).match_all s start end_ := by
  have h : (t.add w).add w = t.add w := by
    simp only [Trie.add, add_loop_idem]
  exact ⟨h, fun s start end_ => by rw [h]⟩

/-- The result of `match_all` depends on the trie only through the non-empty
words found from its root. -/
theorem match_all_congr (t1 t2 : Trie)
    (h : ∀ u : String, u ≠ [] → Trie.has t1.root_ u = Trie.has t2.root_ u)
    (s : String) (start end_ : Nat) :
    t1.match_all s start end_ = t2.match_all s start end_ := by
  unfold Trie.match_all
  rw [match_loop_eq, match_loop_eq]
  congr 2
  apply List.filter_congr
  intro i hi
  apply h
  have hlt := List.mem_range.1 hi
  intro hnil
  have hlen := congrArg List.length hnil
  simp only [List.length_take, List.length_nil] at hlen
  omega

theorem has_add_nil (t : Trie) (u : String) (hu : u ≠ []) :
    Trie.has (t.add []).root_ u = Trie.has t.root_ u := by
  rw [Trie.add, has_add_loop]
  simp [hu]

/-- C14 (no zero-length match): for every trie, every span returned by
`match_all` has length at least 1; adding the empty word (a blank dictionary
line) to any trie leaves the result of `match_all` unchanged for every text and
position, and so does the empty word anywhere in the sequence of `add` calls
that builds the dictionary. -/
theorem match_all_no_empty_match (t : Trie) (lines : List String) (s : String)
    (start end_ : Nat) :
    (∀ w ∈ t.match_all s start end_, 1 ≤ length w) ∧
      (t.add []).match_all s start end_ = t.match_all s start end_ ∧
      (build lines).match_all s start end_ =
        (build (lines.filter (fun l => decide (l ≠ [])))).match_all s start end_ := by
  refine ⟨?_, ?_, ?_⟩
  · intro w hw
    obtain ⟨e1, e2, _⟩ := mem_match_all t s start end_ w hw
    unfold length
    omega
  · exact match_all_congr _ _ (has_add_nil t) s start end_
  · apply match_all_congr
    intro u hu
    rw [has_build, has_build]
    simp [List.mem_filter, hu]

theorem get_chunks_it_congr (self1 self2 : MMSeg) (log : F32 → F32) (s : String) (end_ : Nat)
    (hc : self1.char_freqs_ = self2.char_freqs_)
    (hm : ∀ start, self1.dict_.match_all s start end_ = self2.dict_.match_all s start end_) :
    ∀ (fuel start : Nat) (n : Int) (segs : List StringP) (ret : List Chunk),
      get_chunks_it self1 log s end_ fuel start n segs ret =
        get_chunks_it self2 log s end_ fuel start n segs ret := by
  intro fuel
  induction fuel with
  | zero => intro start n segs ret; simp only [get_chunks_it, hc]
  | succ fuel ih => intro start n segs ret; simp only [get_chunks_it, hc, hm, ih]

theorem segment_loop_congr (self1 self2 : MMSeg) (log : F32 → F32) (s : String) (depth : Int)
    (hc : self1.char_freqs_ = self2.char_freqs_)
    (hm : ∀ start end_, self1.dict_.match_all s start end_ = self2.dict_.match_all s start end_) :
    ∀ (fuel start : Nat) (ret : List String),
      segment_loop self1 log s depth fuel start ret =
        segment_loop self2 log s depth fuel start ret := by
  intro fuel
  induction fuel with
  | zero => intro start ret; simp only [segment_loop]
  | succ fuel ih =>
    intro start ret
    simp only [segment_loop, get_chunks,
      get_chunks_it_congr self1 self2 log s s.length hc (fun st => hm st s.length), ih]

/-- C12 (the output depends only on the set of words): two sequences of `add`
calls that insert the same set of words give the same `match_all` result at
every position of every text, and the same output of `segment` for every text,
frequency table and depth. -/
theorem segment_depends_on_word_set (words1 words2 : List String)
    (h : ∀ u : String, u ∈ words1 ↔ u ∈ words2) :
    (∀ (s : String) (start end_ : Nat),
      (build words1).match_all s start end_ = (build words2).match_all s start end_) ∧
    (∀ (chars : FreqTable) (log : F32 → F32) (fuel : Nat) (s : String) (depth : Int),
      segment ⟨chars, build words1⟩ log fuel s depth =
        segment ⟨chars, build words2⟩ log fuel s depth) := by
  have hm : ∀ (s : String) (start end_ : Nat),
      (build words1).match_all s start end_ = (build words2).match_all s start end_ := by
    intro s start end_
    apply match_all_congr
    intro u _
    rw [has_build, has_build]
    simp [h u]
  refine ⟨hm, ?_⟩
  intro chars log fuel s depth
  exact segment_loop_congr ⟨chars, build words1⟩ ⟨chars, build words2⟩ log s depth rfl
    (hm s) fuel 0 []

theorem segment_depends_on_word_set_witness :
    (∀ u : String, u ∈ ([[0x41], [0x41, 0x42]] : List String) ↔
        u ∈ ([[0x41, 0x42], [0x41], [0x41, 0x42]] : List String)) ∧
    (∀ (s : String) (start end_ : Nat),
      (build [[0x41], [0x41, 0x42]]).match_all s start end_ =
        (build [[0x41, 0x42], [0x41], [0x41, 0x42]]).match_all s start end_) ∧
    (∀ (chars : FreqTable) (log : F32 → F32) (fuel : Nat) (s : String) (depth : Int),
      segment ⟨chars, build [[0x41], [0x41, 0x42]]⟩ log fuel s depth =
        segment ⟨chars, build [[0x41, 0x42], [0x41], [0x41, 0x42]]⟩ log fuel s depth) :=
  have h : ∀ u : String, u ∈ ([[0x41], [0x41, 0x42]] : List String) ↔
      u ∈ ([[0x41, 0x42], [0x41], [0x41, 0x42]] : List String) := by
    intro u
    simp only [List.mem_cons, List.mem_singleton, List.not_mem_nil, or_false]
    tauto
  ⟨h, segment_depends_on_word_set _ _ h⟩

/-! ## The variance of a chunk -/

/-- C15 (negative variance), as the code behaves: the accumulator of the sum of
squares passes through the `size_t n` parameter of the lambda and is truncated
at every step.  For the span lengths `[1, 2]` the constructor computes
`var_ = -1/8`, not `-1/4`, and the span lengths `[1, 2, 2]` and `[2, 2, 1]` give
two different values of `var_`. -/
theorem var_accumulator_truncated (log : F32 → F32) (s : String) (chars : FreqTable) :
    (Chunk.new log s [(0, 1), (1, 3)] chars).var_ =
        F32.neg (F32.div (F32.ofNat 1) (F32.ofNat 8)) ∧
      (Chunk.new log s [(0, 1), (1, 3)] chars).var_ ≠
        F32.neg (F32.div (F32.ofNat 1) (F32.ofNat 4)) ∧
      (Chunk.new log s [(0, 1), (1, 3), (3, 5)] chars).var_ ≠
        (Chunk.new log s [(0, 2), (2, 4), (4, 5)] chars).var_ := by
  have h1 : (Chunk.new log s [(0, 1), (1, 3)] chars).var_ =
      F32.fin (-89202980794122492566142873090593446023921664) := rfl
  have h2 : (Chunk.new log s [(0, 1), (1, 3), (3, 5)] chars).var_ =
      F32.fin (-26430518341722795127397064813005122947776512) := rfl
  have h3 : (Chunk.new log s [(0, 2), (2, 4), (4, 5)] chars).var_ =
      F32.fin (-105722041465419281671607309560651045062836224) := rfl
  rw [h1, h2, h3]
  decide

/-! ## The chunks of the enumeration -/

/-- The reference recursion does not depend on its budget, once the budget
covers the code units left. -/
theorem enum_fuel (self : MMSeg) (log : F32 → F32) (s : String) (end_ : Nat) :
    ∀ (fuel fuel' start : Nat) (n : Int) (path : List StringP),
      start ≤ end_ → end_ - start ≤ fuel → end_ - start ≤ fuel' →
      enum self log s end_ fuel start n path = enum self log s end_ fuel' start n path := by
  intro fuel
  induction fuel with
  | zero =>
    intro fuel' start n path h1 h2 _
    have : start = end_ := by omega
    rw [this, enum_end, enum_end]
  | succ fuel ih =>
    intro fuel' start n path h1 h2 h3
    by_cases hn : n = 0
    · rw [hn, enum_zero, enum_zero]
    by_cases hs : start = end_
    · rw [hs, enum_end, enum_end]
    obtain ⟨fuel', rfl⟩ : ∃ k, fuel' = k + 1 := ⟨fuel' - 1, by omega⟩
    rw [enum_succ self log s end_ fuel start n path hn hs,
      enum_succ self log s end_ fuel' start n path hn hs,
      ih fuel' (start + 1) _ _ (by omega) (by omega) (by omega)]
    congr 1
    apply List.flatMap_congr
    intro w hw
    obtain ⟨_, e2, e3⟩ := mem_match_all _ _ _ _ _ hw
    exact ih fuel' w.2 _ _ e3 (by omega) (by omega)

/-- The last chunk of the enumeration is made of single code units. -/
theorem enum_getLast (self : MMSeg) (log : F32 → F32) (s : String) (end_ : Nat) :
    ∀ (fuel start : Nat) (n : Int) (path : List StringP),
      start ≤ end_ → end_ - start ≤ fuel → 0 ≤ n →
      (enum self log s end_ fuel start n path).getLast? =
        some (Chunk.new log s (path ++ singles start (min n.toNat (end_ - start)))
          self.char_freqs_) := by
  intro fuel
  induction fuel with
  | zero =>
    intro start n path h1 h2 _
    have : start = end_ := by omega
    rw [this, enum_end]
    simp [singles]
  | succ fuel ih =>
    intro start n path h1 h2 h3
    by_cases hn : n = 0
    · rw [hn, enum_zero]
      simp [singles]
    by_cases hs : start = end_
    · rw [hs, enum_end]
      simp [singles]
    rw [enum_succ self log s end_ fuel start n path hn hs,
      List.getLast?_append_of_ne_nil _
        (enum_ne_nil self log s end_ fuel (start + 1) (n - 1) _ (by omega) (by omega)),
      ih (start + 1) (n - 1) _ (by omega) (by omega) (by omega)]
    have hmin : min n.toNat (end_ - start) = min (n - 1).toNat (end_ - (start + 1)) + 1 := by
      omega
    rw [hmin, singles, List.append_assoc, List.singleton_append]

/-- C19 (the chunk collection is never empty): for every text, positions
`start ≤ end`, every depth and every dictionary, `get_chunks` returns at least
one chunk, and the `max_element` of `segment` points to one of them. -/
theorem get_chunks_never_empty (self : MMSeg) (log : F32 → F32) (s : String)
    (start end_ : Nat) (depth : Int) (h : start ≤ end_) :
    ∃ chunks best, get_chunks self log s start end_ depth = some chunks ∧ chunks ≠ [] ∧
      max_element Chunk.less chunks = some best ∧ best ∈ chunks := by
  have hne := enum_ne_nil self log s end_ (end_ - start) start depth [] h (le_refl _)
  obtain ⟨best, hbest, hmem⟩ := max_element_mem Chunk.less _ hne
  exact ⟨_, best, get_chunks_eq self log s start end_ depth h, hne, hbest, hmem⟩

theorem get_chunks_never_empty_witness :
    2 ≤ 5 ∧ ∃ chunks best, get_chunks example_seg (fun x => x) example_text 2 5 0 = some chunks ∧
      chunks ≠ [] ∧ max_element Chunk.less chunks = some best ∧ best ∈ chunks :=
  ⟨by decide, get_chunks_never_empty example_seg (fun x => x) example_text 2 5 0 (by decide)⟩

/-- C18 (enumeration order): the list that `get_chunks` builds in its shared
vector is the list of the reference recursion `enum`; the reference list obeys
the recursion of the enumerator (one chunk at depth 0 or at the end, otherwise
the lists of the dictionary matches in increasing length, then the list of the
single code unit); and below the depth bound and before the end its last chunk
is the chunk of `min(depth, end - start)` single code units. -/
theorem get_chunks_reference_order (self : MMSeg) (log : F32 → F32) (s : String)
    (start end_ : Nat) (n : Int) (path : List StringP) (h : start ≤ end_) :
    get_chunks self log s start end_ n = some (enum self log s end_ (end_ - start) start n []) ∧
    enum self log s end_ (end_ - start) start n path =
      (if n = 0 ∨ start = end_ then [Chunk.new log s path self.char_freqs_]
       else
        (self.dict_.match_all s start end_).flatMap
            (fun w => enum self log s end_ (end_ - w.2) w.2 (n - 1) (path ++ [w]))
          ++ enum self log s end_ (end_ - (start + 1)) (start + 1) (n - 1)
              (path ++ [(start, start + 1)])) ∧
    (1 ≤ n → start < end_ →
      (enum self log s end_ (end_ - start) start n []).getLast? =
        some (Chunk.new log s (singles start (min n.toNat (end_ - start)))
          self.char_freqs_)) := by
  refine ⟨get_chunks_eq self log s start end_ n h, ?_, ?_⟩
  · by_cases hn : n = 0
    · rw [hn, enum_zero]; simp
    by_cases hs : start = end_
    · rw [hs, enum_end]; simp
    have hb : ¬ (n = 0 ∨ start = end_) := by
      rintro (h' | h')
      · exact hn h'
      · exact hs h'
    rw [if_neg hb]
    obtain ⟨k, hk⟩ : ∃ k, end_ - start = k + 1 := ⟨end_ - start - 1, by omega⟩
    rw [hk, enum_succ self log s end_ k start n path hn hs,
      enum_fuel self log s end_ k (end_ - (start + 1)) (start + 1) _ _ (by omega) (by omega)
        (le_refl _)]
    congr 1
    apply List.flatMap_congr
    intro w hw
    obtain ⟨_, e2, e3⟩ := mem_match_all _ _ _ _ _ hw
    exact enum_fuel self log s end_ k (end_ - w.2) w.2 _ _ e3 (by omega) (le_refl _)
  · intro hn _
    have := enum_getLast self log s end_ (end_ - start) start n [] h (le_refl _) (by omega)
    rw [List.nil_append] at this
    exact this

theorem get_chunks_reference_order_witness :
    0 ≤ 5 ∧
    get_chunks example_seg (fun x => x) example_text 0 5 3 =
      some (enum example_seg (fun x => x) example_text 5 (5 - 0) 0 3 []) ∧
    enum example_seg (fun x => x) example_text 5 (5 - 0) 0 3 [] =
      (if (3 : Int) = 0 ∨ 0 = 5 then [Chunk.new (fun x => x) example_text [] example_seg.char_freqs_]
       else
        (example_seg.dict_.match_all example_text 0 5).flatMap
            (fun w => enum example_seg (fun x => x) example_text 5 (5 - w.2) w.2 (3 - 1) ([] ++ [w]))
          ++ enum example_seg (fun x => x) example_text 5 (5 - (0 + 1)) (0 + 1) (3 - 1)
              ([] ++ [(0, 0 + 1)])) ∧
    ((1 : Int) ≤ 3 → 0 < 5 →
      (enum example_seg (fun x => x) example_text 5 (5 - 0) 0 3 []).getLast? =
        some (Chunk.new (fun x => x) example_text (singles 0 (min (3 : Int).toNat (5 - 0)))
          example_seg.char_freqs_)) :=
  ⟨by decide, get_chunks_reference_order example_seg (fun x => x) example_text 0 5 3 []
    (by decide)⟩

/-! ## Well-formed and complete enumeration -/

/-- The spans that `match_all` returns on a built dictionary: those from `start`
within `end` whose text is an inserted word. -/
theorem mem_match_all_build (words : List String) (s : String) (start end_ : Nat)
    (he : end_ ≤ s.length) (w : StringP) :
    w ∈ (build words).match_all s start end_ ↔
      w.1 = start ∧ start < w.2 ∧ w.2 ≤ end_ ∧ slice s start w.2 ∈ words := by
  rw [match_all_build words s start end_ he, List.mem_map]
  constructor
  · rintro ⟨k, hk, rfl⟩
    rw [List.mem_filter, List.mem_range'_1] at hk
    obtain ⟨⟨h1, h2⟩, h3⟩ := hk
    exact ⟨rfl, by simp only; omega, by simp only; omega, by simpa using h3⟩
  · rintro ⟨h1, h2, h3, h4⟩
    refine ⟨w.2 - start, ?_, ?_⟩
    · rw [List.mem_filter, List.mem_range'_1]
      have : start + (w.2 - start) = w.2 := by omega
      refine ⟨⟨by omega, by omega⟩, ?_⟩
      rw [this]
      simpa using h4
    · obtain ⟨a, b⟩ := w
      simp only at h1 h2 ⊢
      rw [h1]
      congr 1
      omega

/-- Every enumerated chunk is built from the path followed by a well-formed
continuation: at most `n` contiguous, non-empty spans within the range, each a
dictionary match or a single code unit, `n` of them unless the end is reached. -/
theorem enum_wf (self : MMSeg) (log : F32 → F32) (s : String) (end_ : Nat) :
    ∀ (fuel start : Nat) (n : Int) (pre : List StringP), start ≤ end_ → 0 ≤ n →
      ∀ c ∈ enum self log s end_ fuel start n pre,
        ∃ more, c = Chunk.new log s (pre ++ more) self.char_freqs_ ∧
          (more.length : Int) ≤ n ∧ contiguous start more ∧
          (∀ w ∈ more, w.1 < w.2 ∧ w.2 ≤ end_ ∧
            (w ∈ self.dict_.match_all s w.1 end_ ∨ w.2 = w.1 + 1)) ∧
          ((more.length : Int) = n ∨ path_end start more = end_) ∧
          path_end start more ≤ end_ := by
  intro fuel
  induction fuel with
  | zero =>
    intro start n pre hle hn c hc
    rw [enum] at hc
    split at hc
    · rename_i hb
      rw [List.mem_singleton] at hc
      refine ⟨[], by rw [hc, List.append_nil], by simpa using hn, trivial, by simp, ?_, hle⟩
      rcases hb with h | h
      · left; simp [h]
      · right; exact h
    · simp at hc
  | succ fuel ih =>
    intro start n pre hle hn c hc
    rw [enum] at hc
    split at hc
    · rename_i hb
      rw [List.mem_singleton] at hc
      refine ⟨[], by rw [hc, List.append_nil], by simpa using hn, trivial, by simp, ?_, hle⟩
      rcases hb with h | h
      · left; simp [h]
      · right; exact h
    · rename_i hb
      have hne : start ≠ end_ := fun h => hb (Or.inr h)
      have hn0 : n ≠ 0 := fun h => hb (Or.inl h)
      rw [List.mem_append, List.mem_flatMap] at hc
      rcases hc with ⟨w, hw, hc⟩ | hc
      · obtain ⟨e1, e2, e3⟩ := mem_match_all _ _ _ _ _ hw
        obtain ⟨more, hm, h1, h2, h3, h4, h5⟩ := ih w.2 (n - 1) _ e3 (by omega) c hc
        refine ⟨w :: more, by rw [hm, List.append_assoc, List.singleton_append], ?_,
          ⟨e1, h2⟩, ?_, ?_, h5⟩
        · rw [List.length_cons]; push_cast; omega
        · intro w' hw'
          rcases List.mem_cons.1 hw' with h | h
          · rw [h]
            exact ⟨by omega, e3, Or.inl (by rw [e1]; exact hw)⟩
          · exact h3 w' h
        · rcases h4 with h | h
          · left; rw [List.length_cons]; push_cast; omega
          · right; exact h
      · obtain ⟨more, hm, h1, h2, h3, h4, h5⟩ :=
          ih (start + 1) (n - 1) _ (by omega) (by omega) c hc
        refine ⟨(start, start + 1) :: more,
          by rw [hm, List.append_assoc, List.singleton_append], ?_, ⟨rfl, h2⟩, ?_, ?_, h5⟩
        · rw [List.length_cons]; push_cast; omega
        · intro w' hw'
          rcases List.mem_cons.1 hw' with h | h
          · rw [h]
            exact ⟨by simp, by simp only; omega, Or.inr rfl⟩
          · exact h3 w' h
        · rcases h4 with h | h
          · left; rw [List.length_cons]; push_cast; omega
          · right; exact h

/-- Every well-formed continuation of the path is enumerated. -/
theorem enum_complete (self : MMSeg) (log : F32 → F32) (s : String) (end_ : Nat) :
    ∀ (path pre : List StringP) (start : Nat) (n : Int) (fuel : Nat),
      start ≤ end_ → end_ - start ≤ fuel → (path.length : Int) ≤ n → contiguous start path →
      (∀ w ∈ path, w.1 < w.2 ∧ w.2 ≤ end_ ∧
        (w ∈ self.dict_.match_all s w.1 end_ ∨ w.2 = w.1 + 1)) →
      ((path.length : Int) = n ∨ path_end start path = end_) →
      Chunk.new log s (pre ++ path) self.char_freqs_ ∈ enum self log s end_ fuel start n pre := by
  intro path
  induction path with
  | nil =>
    intro pre start n fuel _ _ _ _ _ h
    rw [List.append_nil]
    rcases h with h | h
    · have : n = 0 := by simpa using h.symm
      rw [this, enum_zero]
      exact List.mem_singleton_self _
    · have : start = end_ := h
      rw [this, enum_end]
      exact List.mem_singleton_self _
  | cons w rest ih =>
    intro pre start n fuel hle hf hlen hcont hall hend
    obtain ⟨hw1, hcont'⟩ := hcont
    obtain ⟨hlt, hwe, hor⟩ := hall w (List.mem_cons_self _ _)
    rw [List.length_cons] at hlen hend
    push_cast at hlen hend
    obtain ⟨fuel, rfl⟩ : ∃ k, fuel = k + 1 := ⟨fuel - 1, by omega⟩
    rw [enum_succ self log s end_ fuel start n pre (by omega) (by omega)]
    have hrest := ih (pre ++ [w]) w.2 (n - 1) fuel hwe (by omega) (by omega) hcont'
      (fun w' hw' => hall w' (List.mem_cons_of_mem _ hw'))
      (by
        rcases hend with h | h
        · left; omega
        · right; exact h)
    rw [List.append_assoc, List.singleton_append] at hrest
    rw [List.mem_append]
    rcases hor with h | h
    · left
      rw [List.mem_flatMap]
      exact ⟨w, by rw [← hw1]; exact h, hrest⟩
    · right
      have hw : w = (start, start + 1) := by
        obtain ⟨a, b⟩ := w
        simp only at hw1 h ⊢
        rw [hw1] at h
        rw [hw1, h]
      subst hw
      exact hrest

theorem foldl_length_sum (words : List StringP) : ∀ init : Nat,
    words.foldl (fun n w => n + length w) init = init + (words.map length).sum := by
  induction words with
  | nil => intro init; simp
  | cons w words ih =>
    intro init
    rw [List.foldl_cons, ih, List.map_cons, List.sum_cons, Nat.add_assoc]

theorem length_new (log : F32 → F32) (s : String) (words : List StringP) (chars : FreqTable) :
    (Chunk.new log s words chars).length_ = (words.map length).sum := by
  simp only [Chunk.new]
  rw [foldl_length_sum, Nat.zero_add]

theorem path_end_eq (path : List StringP) : ∀ start : Nat, contiguous start path →
    (∀ w ∈ path, w.1 < w.2) → start + (path.map length).sum = path_end start path := by
  induction path with
  | nil => intro start _ _; simp [path_end]
  | cons w rest ih =>
    intro start hc hall
    obtain ⟨h1, h2⟩ := hc
    have hw := hall w (List.mem_cons_self _ _)
    rw [List.map_cons, List.sum_cons, path_end,
      ← ih w.2 h2 (fun w' hw' => hall w' (List.mem_cons_of_mem _ hw'))]
    unfold length
    omega

/-- C17 (chunk well-formedness): for a dictionary built by `add` calls, positions
`start < end` within the text and a depth of at least 1, every chunk returned by
`get_chunks(start, end, depth)` has between 1 and `depth` spans; the first starts
at `start` and each begins where the previous one ends; every span has length at
least 1 and is an inserted word or a single code unit; the last span ends at or
before `end`; there are exactly `depth` spans unless the last one ends at `end`;
and `length_` is the sum of the span lengths, the end of the last span minus
`start`. -/
theorem get_chunks_well_formed (words : List String) (chars : FreqTable) (log : F32 → F32)
    (s : String) (start end_ : Nat) (depth : Int) (hs : start < end_) (he : end_ ≤ s.length)
    (hd : 1 ≤ depth) :
    ∃ chunks, get_chunks ⟨chars, build words⟩ log s start end_ depth = some chunks ∧
      ∀ c ∈ chunks,
        1 ≤ c.words_.length ∧ (c.words_.length : Int) ≤ depth ∧
        contiguous start c.words_ ∧
        (∀ w ∈ c.words_, 1 ≤ length w ∧ (slice s w.1 w.2 ∈ words ∨ length w = 1)) ∧
        path_end start c.words_ ≤ end_ ∧
        ((c.words_.length : Int) = depth ∨ path_end start c.words_ = end_) ∧
        c.length_ = (c.words_.map length).sum ∧
        c.length_ = path_end start c.words_ - start := by
  refine ⟨_, get_chunks_eq _ log s start end_ depth (by omega), ?_⟩
  intro c hc
  obtain ⟨more, hm, h1, h2, h3, h4, h5⟩ :=
    enum_wf ⟨chars, build words⟩ log s end_ _ start depth [] (by omega) (by omega) c hc
  rw [List.nil_append] at hm
  have hw : c.words_ = more := by rw [hm]; rfl
  have hpos : ∀ w ∈ more, w.1 < w.2 := fun w hw' => (h3 w hw').1
  have hsum := path_end_eq more start h2 hpos
  rw [hw]
  refine ⟨?_, h1, h2, ?_, h5, h4, ?_, ?_⟩
  · cases more with
    | nil =>
      rcases h4 with h | h
      · simp at h; omega
      · simp only [path_end] at h; omega
    | cons w rest => simp
  · intro w hw'
    obtain ⟨a1, a2, a3⟩ := h3 w hw'
    refine ⟨by unfold length; omega, ?_⟩
    rcases a3 with a3 | a3
    · left
      exact ((mem_match_all_build words s w.1 end_ he w).1 a3).2.2.2
    · right
      unfold length; omega
  · rw [hm, length_new]
  · rw [hm, length_new]
    omega

theorem get_chunks_well_formed_witness :
    0 < 5 ∧ 5 ≤ example_text.length ∧ (1 : Int) ≤ 3 ∧
    ∃ chunks, get_chunks ⟨fun _ => none, build example_words⟩ (fun x => x) example_text 0 5 3 =
        some chunks ∧
      ∀ c ∈ chunks,
        1 ≤ c.words_.length ∧ (c.words_.length : Int) ≤ 3 ∧
        contiguous 0 c.words_ ∧
        (∀ w ∈ c.words_, 1 ≤ length w ∧
          (slice example_text w.1 w.2 ∈ example_words ∨ length w = 1)) ∧
        path_end 0 c.words_ ≤ 5 ∧
        ((c.words_.length : Int) = 3 ∨ path_end 0 c.words_ = 5) ∧
        c.length_ = (c.words_.map length).sum ∧
        c.length_ = path_end 0 c.words_ - 0 :=
  ⟨by decide, by decide, by decide,
    get_chunks_well_formed example_words (fun _ => none) (fun x => x) example_text 0 5 3
      (by decide) (by decide) (by decide)⟩

/-- C16 (enumerator completeness): for a dictionary built by `add` calls and
positions `start < end` within the text, every sequence of at most `depth` spans
(so of 1 to `depth` spans when the depth is at least 1) that starts at `start`,
is contiguous, stays within `end`, is made of inserted words and single code
units, and has exactly `depth` spans or ends at `end`, is the `words_` of a
chunk returned by `get_chunks(start, end, depth)`. -/
theorem get_chunks_complete (words : List String) (chars : FreqTable) (log : F32 → F32)
    (s : String) (start end_ : Nat) (depth : Int) (path : List StringP)
    (hs : start < end_) (he : end_ ≤ s.length)
    (h2 : (path.length : Int) ≤ depth) (h3 : contiguous start path)
    (h4 : ∀ w ∈ path, w.1 < w.2 ∧ w.2 ≤ end_ ∧ (slice s w.1 w.2 ∈ words ∨ w.2 = w.1 + 1))
    (h5 : (path.length : Int) = depth ∨ path_end start path = end_) :
    ∃ chunks, get_chunks ⟨chars, build words⟩ log s start end_ depth = some chunks ∧
      ∃ c ∈ chunks, c.words_ = path := by
  refine ⟨_, get_chunks_eq _ log s start end_ depth (by omega), ?_⟩
  have hmem := enum_complete ⟨chars, build words⟩ log s end_ path [] start depth
    (end_ - start) (by omega) (le_refl _) h2 h3
    (fun w hw => by
      obtain ⟨a1, a2, a3⟩ := h4 w hw
      refine ⟨a1, a2, ?_⟩
      rcases a3 with a3 | a3
      · left
        exact (mem_match_all_build words s w.1 end_ he w).2 ⟨rfl, a1, a2, a3⟩
      · right; exact a3)
    h5
  rw [List.nil_append] at hmem
  exact ⟨_, hmem, rfl⟩

theorem get_chunks_complete_witness :
    0 < 5 ∧ 5 ≤ example_text.length ∧
    (([(0, 3), (3, 5)] : List StringP).length : Int) ≤ 3 ∧
    contiguous 0 [(0, 3), (3, 5)] ∧
    (∀ w ∈ ([(0, 3), (3, 5)] : List StringP), w.1 < w.2 ∧ w.2 ≤ 5 ∧
      (slice example_text w.1 w.2 ∈ example_words ∨ w.2 = w.1 + 1)) ∧
    ((([(0, 3), (3, 5)] : List StringP).length : Int) = 3 ∨
      path_end 0 [(0, 3), (3, 5)] = 5) ∧
    ∃ chunks, get_chunks ⟨fun _ => none, build example_words⟩ (fun x => x) example_text 0 5 3 =
        some chunks ∧
      ∃ c ∈ chunks, c.words_ = [(0, 3), (3, 5)] :=
  have h3 : contiguous 0 [(0, 3), (3, 5)] := ⟨rfl, rfl, trivial⟩
  have h4 : ∀ w ∈ ([(0, 3), (3, 5)] : List StringP), w.1 < w.2 ∧ w.2 ≤ 5 ∧
      (slice example_text w.1 w.2 ∈ example_words ∨ w.2 = w.1 + 1) := by
    intro w hw
    simp only [List.mem_cons, List.mem_singleton, List.not_mem_nil, or_false] at hw
    rcases hw with rfl | rfl
    · exact ⟨by decide, by decide, Or.inl (by decide)⟩
    · exact ⟨by decide, by decide, Or.inl (by decide)⟩
  have h5 : (([(0, 3), (3, 5)] : List StringP).length : Int) = 3 ∨
      path_end 0 [(0, 3), (3, 5)] = 5 := Or.inr rfl
  ⟨by decide, by decide, by decide, h3, h4, h5,
    get_chunks_complete example_words (fun _ => none) (fun x => x) example_text 0 5 3
      [(0, 3), (3, 5)] (by decide) (by decide) (by decide) h3 h4 h5⟩

/-- The loop of `segment` for a depth other than `0` on a built dictionary
appends single code units and inserted words only. -/
theorem segment_loop_words (chars : FreqTable) (log : F32 → F32) (words : List String)
    (s : String) (depth : Int) (hd : depth ≠ 0) : ∀ (fuel start : Nat) (ret : List String),
      start ≤ s.length → s.length - start ≤ fuel →
      ∃ ws, segment_loop ⟨chars, build words⟩ log s depth fuel start ret = .ok (ret ++ ws) ∧
        ∀ w ∈ ws, w.length = 1 ∨ w ∈ words := by
  intro fuel
  induction fuel with
  | zero =>
    intro start ret h1 h2
    have : start = s.length := by omega
    exact ⟨[], by simp [segment_loop, this]⟩
  | succ fuel ih =>
    intro start ret h1 h2
    by_cases hs : start = s.length
    · exact ⟨[], by simp [segment_loop, hs]⟩
    · obtain ⟨e, ⟨he1, he2⟩, hor, hstep⟩ :=
        segment_loop_step ⟨chars, build words⟩ log s depth hd fuel start ret (by omega)
      obtain ⟨ws, h3, h4⟩ := ih e (ret ++ [slice s start e]) he2 (by omega)
      refine ⟨slice s start e :: ws, ?_, ?_⟩
      · rw [hstep, h3, List.append_assoc, List.singleton_append]
      · intro w hw
        rcases List.mem_cons.1 hw with h | h
        · rw [h]
          rcases hor with h' | h'
          · right
            exact ((mem_match_all_build words s start s.length (le_refl _) (start, e)).1
              h').2.2.2
          · left
            rw [length_slice s start e he2]
            omega
        · exact h4 w h

/-- C20 (output words): for every text, dictionary built by `add` calls,
frequency table and depth of at least 1, every word returned by `segment` has
exactly one code unit or is one of the inserted words. -/
theorem segment_words_from_dictionary (chars : FreqTable) (log : F32 → F32)
    (words : List String) (s : String) (depth : Int) (fuel : Nat) (hd : 1 ≤ depth)
    (hf : s.length ≤ fuel) :
    ∃ out, segment ⟨chars, build words⟩ log fuel s depth = .ok out ∧
      ∀ w ∈ out, w.length = 1 ∨ w ∈ words := by
  obtain ⟨ws, h1, h2⟩ := segment_loop_words chars log words s depth (by omega) fuel 0 []
    (Nat.zero_le _) (by omega)
  exact ⟨ws, by rw [segment, h1, List.nil_append], h2⟩

theorem segment_words_from_dictionary_witness :
    (1 : Int) ≤ 3 ∧ example_text.length ≤ 5 ∧
    ∃ out, segment ⟨fun _ => some 7, build example_words⟩ (fun x => x) 5 example_text 3 =
        .ok out ∧
      ∀ w ∈ out, w.length = 1 ∨ w ∈ example_words :=
  ⟨by decide, by decide,
    segment_words_from_dictionary (fun _ => some 7) (fun x => x) example_words example_text 3 5
      (by decide) (by decide)⟩

set_option maxRecDepth 100000 in
/-- C5 (worked example): with the dictionary built from 研究, 研究生, 生命, 命运, an
empty frequency table and depth 3, `segment("研究生命运", 3)` returns the two
words 研究生 and 命运 (within two iterations of the loop). -/
theorem segment_worked_example (log : F32 → F32) (extra : Nat) :
    segment example_seg log (extra + 2) example_text 3 =
      .ok [[0x7814, 0x7A76, 0x751F], [0x547D, 0x8FD0]] := by
  cases extra <;> rfl

end MMSeg
